import Mathlib

/-!
# A verification development of the lock-free list queue (`src/impls/list.rs`)

This file shallowly embeds the unbounded MPMC linked-list queue from
`src/impls/list.rs` and proves/refutes the frozen claims about it.

Modelling conventions:
* The node heap is an arena `List (Node T)`; a node's id is its index, and
  allocation (`Owned::new` + `into_ptr`) appends at index `arena.length`.
  A raw pointer is modelled as a node id (`Nat`); `null` is `Option.none`.
* `Node.value : Option T` — `none` models the sentinel's `mem::uninitialized()`
  slot; every pushed node carries `some v`.
* Freeing a node (`Vec::from_raw_parts` in `pop`/`Drop`, or `defer_free` in the
  slow path) is recorded by appending its id to a `freed` log; the arena entry
  itself is kept so that ids remain stable, mirroring how a freed pointer value
  still exists but must not be dereferenced.
* The head pointer's tag bits (`USE = 1`, `MULTI = 2`) are kept in `headTag`.
* `sends`/`recvs` are `AtomicUsize` counters; the claims stay far below
  `2^64` operations so the counters are modelled as `Nat` (the `usize`
  wrap-around of `fetch_add` is unreachable in any of the stated scenarios,
  and `wrapping_sub` agrees with `Nat` subtraction while `recvs ≤ sends`).
* The `Monitor` type (wakeup registry) and the error enums live in
  `monitor.rs` / `err.rs`, which are not part of the sources; they are
  modelled from the spec (§6, §7) where indicated.
* Operations of the concurrent code are embedded at two granularities:
  whole atomic operations (`Queue.push`, `Queue.popOp`, …) used for the
  sequential/linearized trace claims, and single loop iterations / single
  atomic head-pointer updates (`Queue.popFastIter`, `HeadOp`) used for the
  claims about the internal structure of `pop`.
-/

namespace ListQueue

/-- `const USE: usize = 1;` (src/impls/list.rs line 98). -/
def USE : Nat := 1

/-- `const MULTI: usize = 2;` (src/impls/list.rs line 99). -/
def MULTI : Nat := 2

/-- The mask `!USE` on a 64-bit `usize`, used by `fetch_and(!USE, ..)`. -/
def NOT_USE : Nat := 2 ^ 64 - 2

/-- A single node in the queue (`struct Node<T>` in src/impls/list.rs):
`next` is the tagged atomic pointer to the next node (tag unused on `next`;
pushed pointers are stored untagged) and `value` the payload, `none` standing
for the sentinel's uninitialized slot. -/
structure Node (T : Type) where
  next : Option Nat
  value : Option T
  deriving Repr, DecidableEq

/-- Modelled from the spec: the `Monitor` wakeup registry (§6, monitor.rs is
not among the sources). `registered` are the currently subscribed waiters;
`woken` logs every wakeup delivered, in order. `wakeup_one(id)` wakes exactly
one registered waiter, `wakeup_all(id)` wakes every registered waiter. -/
structure Monitor where
  registered : List Nat
  woken : List Nat
  deriving Repr, DecidableEq

/-- Modelled from the spec: `wakeup_one` wakes exactly one registered waiter
(used after a successful push). -/
def Monitor.wakeupOne (m : Monitor) : Monitor :=
  match m.registered with
  | [] => m
  | w :: rest => { registered := rest, woken := m.woken ++ [w] }

/-- Modelled from the spec: `wakeup_all` wakes every registered waiter
(used on close). -/
def Monitor.wakeupAll (m : Monitor) : Monitor :=
  { registered := [], woken := m.woken ++ m.registered }

/-- The queue (`pub struct Queue<T>` in src/impls/list.rs): head and tail
node ids, the head pointer's tag bits, the send/receive counters, the closed
flag and the receivers monitor.  `arena` is the node heap (ids = indices,
fresh id = `arena.length`), `freed` the log of node ids handed to
reclamation. -/
structure Queue (T : Type) where
  arena : List (Node T)
  freed : List Nat
  head : Nat
  headTag : Nat
  tail : Nat
  sends : Nat
  recvs : Nat
  closed : Bool
  receivers : Monitor
  deriving Repr, DecidableEq

/-- The `next` field of node `i` (null pointer ⇒ `none`). -/
def nodeNext (arena : List (Node T)) (i : Nat) : Option Nat :=
  (arena.get? i).bind (fun n => n.next)

/-- The `value` field of node `i` (`none` also when `i` is out of the arena). -/
def nodeValue (arena : List (Node T)) (i : Nat) : Option T :=
  (arena.get? i).bind (fun n => n.value)

/-- `old.deref().next.store(new, SeqCst)`: update node `i`'s `next` to `n`. -/
def setNext (arena : List (Node T)) (i : Nat) (n : Nat) : List (Node T) :=
  match arena.get? i with
  | none => arena
  | some nd => arena.set i { nd with next := some n }

/-- `Queue::new()` (src/impls/list.rs lines 48–79): all counters zero, open,
and one sentinel node (uninitialized value, null next) installed as both head
and tail. -/
def Queue.new (T : Type) : Queue T :=
  { arena := [{ next := none, value := none }]
    freed := []
    head := 0
    headTag := 0
    tail := 0
    sends := 0
    recvs := 0
    closed := false
    receivers := { registered := [], woken := [] } }

/-! ## push (src/impls/list.rs lines 81–95), decomposed into its four steps -/

/-- Step 1 of `push`: `Owned::new(Node { value, next: null }).into_ptr` —
allocate a fresh node holding `value` with a null `next`; returns the queue
with the node in the arena and the new node's id. -/
def Queue.allocNode (q : Queue T) (value : T) : Queue T × Nat :=
  ({ q with arena := q.arena ++ [{ next := none, value := some value }] },
   q.arena.length)

/-- Step 2 of `push`: `self.tail.swap(new, SeqCst)` — atomically swap the
tail pointer to `new`, returning the previous tail. -/
def Queue.swapTail (q : Queue T) (new : Nat) : Queue T × Nat :=
  ({ q with tail := new }, q.tail)

/-- Step 3 of `push`: `self.sends.fetch_add(1, SeqCst)`. -/
def Queue.incSends (q : Queue T) : Queue T :=
  { q with sends := q.sends + 1 }

/-- Step 4 of `push`: `old.deref().next.store(new, SeqCst)`. -/
def Queue.storeNext (q : Queue T) (old new : Nat) : Queue T :=
  { q with arena := setNext q.arena old new }

/-- `Queue::push` (src/impls/list.rs lines 81–95): allocate, swap tail,
increment `sends`, link the previous tail to the new node — in that order,
with no failure case and no retry loop. -/
def Queue.push (q : Queue T) (value : T) : Queue T :=
  let (q1, new) := q.allocNode value
  let (q2, old) := q1.swapTail new
  let q3 := q2.incSends
  q3.storeNext old new

/-! ## pop -/

/-- `Queue::pop` at whole-operation granularity (src/impls/list.rs lines
97–166): read `head.next`; if null the queue is empty (the source then
checks `tail == head` — under the queue invariant this always holds in a
quiescent state, and otherwise the source retries until a mid-append
producer finishes, which a sequential step cannot observe); if non-null,
advance `head` to it, bump `recvs`, reclaim the old head node (immediately
on the fast path, deferred on the slow path — both recorded in `freed`) and
return the value read out of the new head node.  The head tag is unchanged
across a whole pop (0 → 0 on the fast path, `MULTI` → `MULTI` on the slow
path). -/
def Queue.popOp (q : Queue T) : Option T × Queue T :=
  match nodeNext q.arena q.head with
  | none => (none, q)
  | some nxt =>
      (nodeValue q.arena nxt,
       { q with head := nxt
                recvs := q.recvs + 1
                freed := q.freed ++ [q.head] })

/-- Outcome of one iteration of `pop`'s fast-path loop
(src/impls/list.rs lines 104–135). -/
inductive FastOut (T : Type) where
  /-- `head.fetch_or(USE)` observed a nonzero tag: `break` out of the fast
  loop (towards the `MULTI` upgrade, lines 106–108 and 137–140). -/
  | contended
  /-- `next` was null and `tail == head`: `return None` (lines 112–117). -/
  | empty
  /-- `next` was null but `tail != head`: the producer is mid-append —
  release `USE`, `yield_now()` and retry (lines 112–119). -/
  | pushRace
  /-- `next` non-null, value read and the head CAS succeeded
  (lines 120–130); the read of an uninitialized slot yields `none`. -/
  | popped (v : Option T)
  deriving Repr, DecidableEq

/-- One iteration of `pop`'s fast-path loop (src/impls/list.rs lines
104–135), from the state as the iteration begins.  `fetch_or(USE)` returns
the previous tag; a nonzero previous tag breaks out of the loop.  Otherwise
the iteration holds `USE` exclusively, so with no interference the
`compare_and_swap` from `(head, USE)` to `(next, 0)` succeeds. -/
def Queue.popFastIter (q : Queue T) : FastOut T × Queue T :=
  let prev := q.headTag
  let q1 : Queue T := { q with headTag := q.headTag ||| USE }
  if prev ≠ 0 then
    (.contended, q1)
  else
    match nodeNext q1.arena q1.head with
    | none =>
        let q2 : Queue T := { q1 with headTag := q1.headTag &&& NOT_USE }
        if q2.tail = q2.head then (.empty, q2) else (.pushRace, q2)
    | some nxt =>
        (.popped (nodeValue q1.arena nxt),
         { q1 with head := nxt
                   headTag := 0
                   recvs := q1.recvs + 1
                   freed := q1.freed ++ [q1.head] })

/-- Which removal algorithm a `pop` call runs: the adaptive check
`self.head.load(Relaxed).tag() & MULTI == 0` (src/impls/list.rs line 103)
selects the fast path only while the `MULTI` bit is clear. -/
inductive PopPath where
  | fast
  | slow
  deriving Repr, DecidableEq

/-- The path selection at the top of `Queue::pop` (line 103). -/
def Queue.popPath (q : Queue T) : PopPath :=
  if q.headTag &&& MULTI = 0 then .fast else .slow

/-! ## The atomic updates `pop` performs on the tagged head pointer -/

/-- A tagged pointer value: node id plus tag bits, compared and exchanged
as one unit. -/
structure HeadPtr where
  ptr : Nat
  tag : Nat
  deriving Repr, DecidableEq

/-- Every atomic update `Queue::pop` performs on the `head` tagged pointer
(src/impls/list.rs lines 101–163). -/
inductive HeadOp where
  /-- `self.head.fetch_or(USE, SeqCst)` (line 105). -/
  | fetchOrUse
  /-- `self.head.fetch_and(!USE, SeqCst)` (lines 113 and 133). -/
  | fetchAndNotUse
  /-- `self.head.fetch_or(MULTI, SeqCst)` (line 137). -/
  | fetchOrMulti
  /-- Fast-path `compare_and_swap(head.with_tag(USE), next, ..)`
  (lines 123–124): expects tag exactly `USE`, installs `next` with tag 0
  (push stores `next` pointers untagged). -/
  | casFast (expectedPtr nextPtr : Nat)
  /-- Slow-path `compare_and_swap(head, next.with_tag(MULTI), ..)`
  (lines 152–153): expects the loaded head (pointer and tag), installs
  `next` with tag exactly `MULTI`. -/
  | casSlow (expected : HeadPtr) (nextPtr : Nat)
  deriving Repr, DecidableEq

/-- Effect of each head-pointer update; a failed compare-and-swap leaves the
pointer unchanged. -/
def applyHeadOp : HeadOp → HeadPtr → HeadPtr
  | .fetchOrUse, h => { h with tag := h.tag ||| USE }
  | .fetchAndNotUse, h => { h with tag := h.tag &&& NOT_USE }
  | .fetchOrMulti, h => { h with tag := h.tag ||| MULTI }
  | .casFast e n, h => if h = ⟨e, USE⟩ then ⟨n, 0⟩ else h
  | .casSlow e n, h => if h = e then ⟨n, MULTI⟩ else h

/-! ## The error taxonomy (err.rs, not among the sources) -/

/-- Modelled from the spec: the send error taxonomy shared with the other
channel flavors (§6–§7).  Bounded flavors can fail with *Full*; every send
error carries the unsent value back to the caller. -/
inductive TrySendError (T : Type) where
  | full (v : T)
  | disconnected (v : T)
  deriving Repr, DecidableEq

/-- Modelled from the spec: deadline-aware send errors — *Timeout* or
*Disconnected*, each carrying the unsent value (§7). -/
inductive SendTimeoutError (T : Type) where
  | timeout (v : T)
  | disconnected (v : T)
  deriving Repr, DecidableEq

/-- Modelled from the spec: non-blocking receive errors — *Empty* (no value,
still open) or *Disconnected* (closed and drained) (§7). -/
inductive TryRecvError where
  | empty
  | disconnected
  deriving Repr, DecidableEq

/-! ## The `Channel` trait implementation (src/impls/list.rs lines 173–277) -/

/-- `Channel::try_send` (src/impls/list.rs lines 174–182): if the queue is
closed, fail with `Disconnected` carrying the value back; otherwise push and
wake one waiting receiver. -/
def Queue.trySend (q : Queue T) (value : T) :
    Except (TrySendError T) Unit × Queue T :=
  if q.closed then
    (.error (.disconnected value), q)
  else
    let q1 := q.push value
    (.ok (), { q1 with receivers := q1.receivers.wakeupOne })

/-- `Channel::send_until` (src/impls/list.rs lines 184–196): the deadline
parameter (an `Option<Instant>`, modelled as `Option Nat`) is never
inspected; the body is that of `try_send` with the timeout-flavored error
type. -/
def Queue.sendUntil (q : Queue T) (value : T) (_deadline : Option Nat) :
    Except (SendTimeoutError T) Unit × Queue T :=
  if q.closed then
    (.error (.disconnected value), q)
  else
    let q1 := q.push value
    (.ok (), { q1 with receivers := q1.receivers.wakeupOne })

/-- `Channel::try_recv` (src/impls/list.rs lines 198–209): pop; on a value
return it, otherwise report `Disconnected` when the closed flag is set and
`Empty` when it is not. -/
def Queue.tryRecv (q : Queue T) : Except TryRecvError T × Queue T :=
  match q.popOp with
  | (none, q') =>
      if q'.closed then (.error .disconnected, q') else (.error .empty, q')
  | (some v, q') => (.ok v, q')

/-- One iteration of `Channel::len`'s snapshot loop (src/impls/list.rs lines
240–251): read `sends`, then `recvs`, then re-read `sends`; report the
difference only if the two reads of `sends` agree.  (`wrapping_sub` agrees
with `Nat` subtraction while `recvs ≤ sends`, which the queue invariant
guarantees.) -/
def Queue.lenSnapshot (q : Queue T) : Option Nat :=
  let sends := q.sends
  let recvs := q.recvs
  if q.sends = sends then some (sends - recvs) else none

/-- `Channel::len` (src/impls/list.rs lines 240–251).  Against an unchanging
state the snapshot loop exits on its first iteration, with both reads of
`sends` equal. -/
def Queue.len (q : Queue T) : Nat :=
  q.sends - q.recvs

/-- `Channel::is_empty` (src/impls/list.rs lines 253–255): `len() == 0`. -/
def Queue.isEmpty (q : Queue T) : Bool :=
  q.len == 0

/-- `Channel::is_full` (src/impls/list.rs lines 257–259): always false. -/
def Queue.isFull (_q : Queue T) : Bool :=
  false

/-- `Channel::capacity` (src/impls/list.rs lines 261–263): unbounded. -/
def Queue.capacity (_q : Queue T) : Option Nat :=
  none

/-- `Channel::close` (src/impls/list.rs lines 265–272): atomically swap the
closed flag to true; if it was already set, return false and do nothing
else; on the first transition wake all registered waiting receivers and
return true. -/
def Queue.close (q : Queue T) : Bool × Queue T :=
  if q.closed then
    (false, { q with closed := true })
  else
    (true, { q with closed := true, receivers := q.receivers.wakeupAll })

/-- `Channel::is_closed` (src/impls/list.rs lines 274–276). -/
def Queue.isClosed (q : Queue T) : Bool :=
  q.closed

/-! ## Teardown (`impl Drop for Queue`, src/impls/list.rs lines 279–297) -/

/-- The teardown walk: starting from a current node pointer, repeatedly read
`next`; if `next` is non-null, drop the value of the `next` node in place;
free the current node; advance to `next`.  Returns the values dropped (in
walk order) and the node ids freed (in walk order).  The walk is fueled;
under the queue invariant the chain is acyclic and any fuel beyond the
chain length gives the exact walk of the source. -/
def dropWalk (arena : List (Node T)) : Option Nat → Nat → List T × List Nat
  | none, _ => ([], [])
  | some _, 0 => ([], [])
  | some h, fuel + 1 =>
      let nxt := nodeNext arena h
      let droppedHere :=
        match nxt.bind (fun j => nodeValue arena j) with
        | some v => [v]
        | none => []
      let rest := dropWalk arena nxt fuel
      (droppedHere ++ rest.1, h :: rest.2)

/-- `Drop for Queue` (src/impls/list.rs lines 279–297): walk the chain from
`head`, dropping each node-after-head's value in place and freeing every
node visited.  Fuel `arena.length + 1` suffices for any acyclic chain. -/
def Queue.dropQueue (q : Queue T) : List T × List Nat :=
  dropWalk q.arena (some q.head) (q.arena.length + 1)

/-! ## Operation traces -/

/-- A queue operation at linearized (whole-operation) granularity, tagged by
the id of the producer/consumer thread that performs it — any interleaving
of any number of producers and consumers is a list of these. -/
inductive Op (T : Type) where
  /-- Thread `tid` pushes `v` (`Queue::push`). -/
  | push (tid : Nat) (v : T)
  /-- Thread `tid` attempts a pop (`Queue::pop`). -/
  | pop (tid : Nat)
  /-- `Channel::close`. -/
  | close
  deriving Repr, DecidableEq

/-- Run a trace of operations, collecting for each consumer thread the values
its pops returned, as a list of `(tid, v)` pairs in pop order. -/
def runOps (q : Queue T) : List (Op T) → Queue T × List (Nat × T)
  | [] => (q, [])
  | op :: ops =>
      match op with
      | .push _ v => runOps (q.push v) ops
      | .pop tid =>
          match q.popOp with
          | (none, q') => runOps q' ops
          | (some v, q') =>
              let r := runOps q' ops
              (r.1, (tid, v) :: r.2)
      | .close => runOps (q.close).2 ops

/-- The multiset of values pushed by a trace. -/
def pushedValues : List (Op T) → List T
  | [] => []
  | .push _ v :: ops => v :: pushedValues ops
  | .pop _ :: ops => pushedValues ops
  | .close :: ops => pushedValues ops

/-- The number of pushes in a trace. -/
def numPushes : List (Op T) → Nat
  | [] => 0
  | .push _ _ :: ops => numPushes ops + 1
  | .pop _ :: ops => numPushes ops
  | .close :: ops => numPushes ops

/-- `pushAll`: one producer pushes a sequence of values, in order. -/
def pushAll (q : Queue T) (vs : List T) : Queue T :=
  vs.foldl Queue.push q

/-- `popN`: one consumer performs `n` consecutive pops, collecting each
pop's result (`none` = the pop found the queue empty). -/
def popN (q : Queue T) : Nat → List (Option T)
  | 0 => []
  | n + 1 =>
      let r := q.popOp
      r.1 :: popN r.2 n

/-- A single channel-API operation, for stating state-machine invariants
over any sequence of operations. -/
inductive ChanOp (T : Type) where
  | trySend (v : T)
  | sendUntil (v : T) (deadline : Option Nat)
  | tryRecv
  | close
  | push (v : T)
  | pop
  deriving Repr

/-- Apply one channel-API operation to the queue state. -/
def stepChanOp (q : Queue T) : ChanOp T → Queue T
  | .trySend v => (q.trySend v).2
  | .sendUntil v d => (q.sendUntil v d).2
  | .tryRecv => (q.tryRecv).2
  | .close => (q.close).2
  | .push v => q.push v
  | .pop => (q.popOp).2

/-- Does the operation call `close`? -/
def ChanOp.isClose : ChanOp T → Bool
  | .close => true
  | _ => false

/-! ## The chain invariant

`links arena i ids` says that starting at node `i` and repeatedly following
`next` visits exactly the nodes `ids` and then stops at a null `next`. -/

/-- The chain of `next` links from node `i` is exactly `ids`. -/
def links (arena : List (Node T)) : Nat → List Nat → Bool
  | i, [] => nodeNext arena i == none
  | i, j :: rest => nodeNext arena i == some j && links arena j rest

/-- The queue's connectivity invariant: the nodes after `head` are exactly
`ids` (in link order), the last chain node is `tail`, every chain node id is
inside the arena, and every node after the head carries a value. -/
def chainOf (q : Queue T) (ids : List Nat) : Prop :=
  links q.arena q.head ids = true ∧
  (q.head :: ids).getLast? = some q.tail ∧
  (∀ i ∈ q.head :: ids, i < q.arena.length) ∧
  (∀ i ∈ ids, (nodeValue q.arena i).isSome = true)

instance (q : Queue T) (ids : List Nat) : Decidable (chainOf q ids) := by
  unfold chainOf; infer_instance

/-- The values held by the given nodes, in order. -/
def valuesOf (arena : List (Node T)) (ids : List Nat) : List T :=
  ids.filterMap (fun i => nodeValue arena i)

/-! ### Basic facts about `setNext`, allocation and `links` -/

theorem length_setNext (arena : List (Node T)) (i n : Nat) :
    (setNext arena i n).length = arena.length := by
  unfold setNext
  cases arena.get? i <;> simp

theorem nodeValue_setNext (arena : List (Node T)) (i n j : Nat) :
    nodeValue (setNext arena i n) j = nodeValue arena j := by
  unfold setNext
  cases hg : arena.get? i with
  | none => rfl
  | some nd =>
      have hlt : i < arena.length := by
        by_contra hc
        rw [List.get?_eq_none.mpr (Nat.le_of_not_lt hc)] at hg
        exact Option.noConfusion hg
      by_cases hij : j = i
      · subst hij
        unfold nodeValue
        rw [List.get?_set_eq_of_lt _ hlt, hg]
        rfl
      · unfold nodeValue
        rw [List.get?_set_ne _ _ (fun h' => hij h'.symm)]

theorem nodeNext_setNext_self (arena : List (Node T)) (i n : Nat)
    (h : i < arena.length) :
    nodeNext (setNext arena i n) i = some n := by
  unfold setNext
  cases hg : arena.get? i with
  | none =>
      rw [List.get?_eq_none] at hg
      omega
  | some nd =>
      unfold nodeNext
      rw [List.get?_set_eq_of_lt _ h]
      rfl

theorem nodeNext_setNext_other (arena : List (Node T)) (i n j : Nat)
    (h : j ≠ i) :
    nodeNext (setNext arena i n) j = nodeNext arena j := by
  unfold setNext
  cases arena.get? i with
  | none => rfl
  | some nd =>
      unfold nodeNext
      rw [List.get?_set_ne _ _ (fun h' => h h'.symm)]

theorem nodeNext_append_lt (arena : List (Node T)) (nd : Node T) (j : Nat)
    (h : j < arena.length) :
    nodeNext (arena ++ [nd]) j = nodeNext arena j := by
  unfold nodeNext
  rw [List.get?_append h]

theorem nodeValue_append_lt (arena : List (Node T)) (nd : Node T) (j : Nat)
    (h : j < arena.length) :
    nodeValue (arena ++ [nd]) j = nodeValue arena j := by
  unfold nodeValue
  rw [List.get?_append h]

theorem nodeNext_append_self (arena : List (Node T)) (nd : Node T) :
    nodeNext (arena ++ [nd]) arena.length = nd.next := by
  unfold nodeNext
  simp

theorem nodeValue_append_self (arena : List (Node T)) (nd : Node T) :
    nodeValue (arena ++ [nd]) arena.length = nd.value := by
  unfold nodeValue
  simp

/-- The chain out of a fixed node is unique. -/
theorem links_deterministic (arena : List (Node T)) :
    ∀ (xs : List Nat) (i : Nat) (ys : List Nat),
      links arena i xs = true → links arena i ys = true → xs = ys := by
  intro xs
  induction xs with
  | nil =>
      intro i ys hx hy
      cases ys with
      | nil => rfl
      | cons y ys =>
          simp only [links, beq_iff_eq, Bool.and_eq_true] at hx hy
          rw [hx] at hy
          exact absurd hy.1 (by simp)
  | cons x xs ih =>
      intro i ys hx hy
      cases ys with
      | nil =>
          simp only [links, beq_iff_eq, Bool.and_eq_true] at hx hy
          rw [hy] at hx
          exact absurd hx.1 (by simp)
      | cons y ys =>
          simp only [links, beq_iff_eq, Bool.and_eq_true] at hx hy
          obtain ⟨hx1, hx2⟩ := hx
          obtain ⟨hy1, hy2⟩ := hy
          rw [hx1] at hy1
          obtain rfl : x = y := by injection hy1
          rw [ih x ys hx2 hy2]

/-- The last node of a chain has a null `next`. -/
theorem links_last_next (arena : List (Node T)) :
    ∀ (ids : List Nat) (i t : Nat),
      links arena i ids = true → (i :: ids).getLast? = some t →
      nodeNext arena t = none := by
  intro ids
  induction ids with
  | nil =>
      intro i t hl hg
      simp only [List.getLast?_singleton, Option.some_inj] at hg
      subst hg
      simpa [links] using hl
  | cons j rest ih =>
      intro i t hl hg
      simp only [links, Bool.and_eq_true, beq_iff_eq] at hl
      exact ih j t hl.2 (by rwa [List.getLast?_cons_cons] at hg)

/-- The explicit result of `Queue.push`: one node appended to the arena with
the pushed value and a null `next`, the old tail's `next` pointed at it, the
tail pointer moved to it, and `sends` bumped; nothing else changes. -/
theorem push_eq (q : Queue T) (v : T) :
    q.push v =
      { q with
        arena := setNext (q.arena ++ [{ next := none, value := some v }])
                   q.tail q.arena.length
        tail := q.arena.length
        sends := q.sends + 1 } := rfl

/-- Pushing extends the link chain by the freshly allocated node. -/
theorem links_push (arena : List (Node T)) (v : T) (t : Nat) :
    ∀ (ids : List Nat) (i : Nat),
      links arena i ids = true →
      (i :: ids).getLast? = some t →
      (∀ k ∈ i :: ids, k < arena.length) →
      links (setNext (arena ++ [{ next := none, value := some v }])
              t arena.length) i (ids ++ [arena.length]) = true := by
  intro ids
  induction ids with
  | nil =>
      intro i hl hg hb
      simp only [List.getLast?_singleton, Option.some_inj] at hg
      subst hg
      have hi : i < arena.length := hb i (by simp)
      have h1 : nodeNext (setNext (arena ++ [{ next := none, value := some v }])
          i arena.length) i = some arena.length :=
        nodeNext_setNext_self _ _ _ (by simp; omega)
      have h2 : nodeNext (setNext (arena ++ [{ next := none, value := some v }])
          i arena.length) arena.length = none := by
        rw [nodeNext_setNext_other _ _ _ _ (by omega), nodeNext_append_self]
      simp [links, h1, h2]
  | cons j rest ih =>
      intro i hl hg hb
      simp only [links, Bool.and_eq_true, beq_iff_eq] at hl
      obtain ⟨hij, hrest⟩ := hl
      rw [List.getLast?_cons_cons] at hg
      have hnt : nodeNext arena t = none := links_last_next arena rest j t hrest hg
      have hit : i ≠ t := fun h => by rw [h, hnt] at hij; exact Option.noConfusion hij
      have hi : i < arena.length := hb i (by simp)
      have h1 : nodeNext (setNext (arena ++ [{ next := none, value := some v }])
          t arena.length) i = some j := by
        rw [nodeNext_setNext_other _ _ _ _ hit, nodeNext_append_lt _ _ _ hi, hij]
      show links _ i (j :: (rest ++ [arena.length])) = true
      simp only [links, Bool.and_eq_true, beq_iff_eq]
      exact ⟨h1, ih j hrest hg (fun k hk => hb k (by simp at hk ⊢; tauto))⟩

/-- `valuesOf` only looks at values, so it is stable under any arena change
that preserves them. -/
theorem valuesOf_congr (a1 a2 : List (Node T)) :
    ∀ ids : List Nat, (∀ i ∈ ids, nodeValue a1 i = nodeValue a2 i) →
      valuesOf a1 ids = valuesOf a2 ids := by
  intro ids
  induction ids with
  | nil => intro _; rfl
  | cons j rest ih =>
      intro h
      simp only [valuesOf, List.filterMap_cons] at *
      rw [h j (by simp)]
      cases nodeValue a2 j <;> simp [ih (fun i hi => h i (by simp [hi]))]

/-- Pushing preserves the chain invariant: the fresh node (id
`q.arena.length`) is appended to the chain, and the chain's values gain `v`
at the back. -/
theorem chainOf_push (q : Queue T) (v : T) (ids : List Nat)
    (h : chainOf q ids) :
    chainOf (q.push v) (ids ++ [q.arena.length]) ∧
    valuesOf (q.push v).arena (ids ++ [q.arena.length])
      = valuesOf q.arena ids ++ [v] := by
  obtain ⟨hl, hg, hb, hv⟩ := h
  rw [push_eq]
  set nd : Node T := { next := none, value := some v } with hnd
  have hlen : (setNext (q.arena ++ [nd]) q.tail q.arena.length).length
      = q.arena.length + 1 := by
    rw [length_setNext, List.length_append, List.length_singleton]
  have htl : q.tail < q.arena.length := by
    have hmem : q.tail ∈ q.head :: ids := by
      obtain ⟨hne, heq⟩ :=
        List.mem_getLast?_eq_getLast (l := q.head :: ids) (x := q.tail)
          (Option.mem_def.mpr hg)
      rw [heq]
      exact List.getLast_mem hne
    exact hb _ hmem
  have hvals : ∀ i ∈ ids ++ [q.arena.length],
      nodeValue (setNext (q.arena ++ [nd]) q.tail q.arena.length) i
        = nodeValue (q.arena ++ [nd]) i := by
    intro i _
    exact nodeValue_setNext _ _ _ _
  refine ⟨⟨links_push q.arena v q.tail ids q.head hl hg hb, ?_, ?_, ?_⟩, ?_⟩
  · show (q.head :: (ids ++ [q.arena.length])).getLast? = some q.arena.length
    rw [← List.cons_append, List.getLast?_concat]
  · intro i hi
    rw [hlen]
    rcases List.mem_cons.mp hi with rfl | hi
    · exact Nat.lt_succ_of_lt (hb _ (by simp))
    · rcases List.mem_append.mp hi with hi | hi
      · exact Nat.lt_succ_of_lt (hb _ (by simp [hi]))
      · rw [List.mem_singleton.mp hi]
        exact Nat.lt_succ_self _
  · intro i hi
    rw [nodeValue_setNext]
    rcases List.mem_append.mp hi with hi | hi
    · rw [nodeValue_append_lt _ _ _ (hb _ (by simp [hi]))]
      exact hv i hi
    · rw [List.mem_singleton.mp hi, nodeValue_append_self]
      rfl
  · show valuesOf _ (ids ++ [q.arena.length]) = valuesOf q.arena ids ++ [v]
    rw [valuesOf_congr _ (q.arena ++ [nd]) _ hvals]
    unfold valuesOf
    rw [List.filterMap_append]
    congr 1
    · exact valuesOf_congr _ _ ids
        (fun i hi => nodeValue_append_lt _ _ _ (hb _ (by simp [hi])))
    · simp [List.filterMap_cons, nodeValue_append_self, hnd]

/-- On an empty chain `pop` finds `head.next` null and (since `tail = head`)
returns `None` without changing the queue. -/
theorem popOp_nil (q : Queue T) (h : chainOf q []) : q.popOp = (none, q) := by
  obtain ⟨hl, _, _, _⟩ := h
  simp only [links, beq_iff_eq] at hl
  unfold Queue.popOp
  rw [hl]

/-- An empty chain also means `tail = head`: the state in which the source's
`pop` reports emptiness. -/
theorem chainOf_nil_tail_eq_head (q : Queue T) (h : chainOf q []) :
    q.tail = q.head := by
  obtain ⟨_, hg, _, _⟩ := h
  simp only [List.getLast?_singleton, Option.some_inj] at hg
  exact hg.symm

/-- On a non-empty chain `pop` returns the first chained value, advances
`head` onto its node, bumps `recvs`, reclaims the old head node, and the
chain invariant holds for the remainder. -/
theorem popOp_cons (q : Queue T) (j : Nat) (rest : List Nat)
    (h : chainOf q (j :: rest)) :
    ∃ v q', nodeValue q.arena j = some v ∧
      q.popOp = (some v, q') ∧ chainOf q' rest ∧
      q'.arena = q.arena ∧ q'.head = j ∧ q'.headTag = q.headTag ∧
      q'.tail = q.tail ∧ q'.sends = q.sends ∧ q'.recvs = q.recvs + 1 ∧
      q'.closed = q.closed ∧ q'.receivers = q.receivers ∧
      q'.freed = q.freed ++ [q.head] := by
  obtain ⟨hl, hg, hb, hv⟩ := h
  simp only [links, Bool.and_eq_true, beq_iff_eq] at hl
  obtain ⟨hij, hrest⟩ := hl
  obtain ⟨v, hval⟩ := Option.isSome_iff_exists.mp (hv j (by simp))
  refine ⟨v, ({ q with
                head := j
                recvs := q.recvs + 1
                freed := q.freed ++ [q.head] } : Queue T),
          hval, ?_, ?_, rfl, rfl, rfl, rfl, rfl, rfl, rfl, rfl, rfl⟩
  · simp only [Queue.popOp, hij, hval]
  · refine ⟨hrest, ?_, ?_, ?_⟩
    · show (j :: rest).getLast? = some q.tail
      rwa [List.getLast?_cons_cons] at hg
    · intro i hi
      exact hb i (by simp at hi ⊢; tauto)
    · intro i hi
      exact hv i (by simp [hi])

/-- The master invariant of a linearized trace: from a state satisfying the
chain invariant, running any interleaving of pushes, pops and closes
preserves the invariant, conserves values as a multiset (popped + still
chained = initially chained + pushed), and accounts `sends`/`recvs`
exactly. -/
theorem runOps_spec (T : Type) :
    ∀ (ops : List (Op T)) (q : Queue T) (ids : List Nat),
      chainOf q ids →
      ∃ ids', chainOf (runOps q ops).1 ids' ∧
        (Multiset.ofList ((runOps q ops).2.map Prod.snd)
          + Multiset.ofList (valuesOf (runOps q ops).1.arena ids')
          = Multiset.ofList (valuesOf q.arena ids)
            + Multiset.ofList (pushedValues ops)) ∧
        (runOps q ops).1.sends = q.sends + numPushes ops ∧
        (runOps q ops).1.recvs = q.recvs + (runOps q ops).2.length := by
  intro ops
  induction ops with
  | nil =>
      intro q ids h
      exact ⟨ids, h, by simp [runOps, pushedValues], by simp [runOps, numPushes],
        by simp [runOps]⟩
  | cons op ops ih =>
      intro q ids h
      cases op with
      | push tid v =>
          obtain ⟨hch, hvals⟩ := chainOf_push q v ids h
          obtain ⟨ids', h1, h2, h3, h4⟩ := ih (q.push v) (ids ++ [q.arena.length]) hch
          refine ⟨ids', ?_, ?_, ?_, ?_⟩ <;>
            simp only [runOps, pushedValues, numPushes]
          · exact h1
          · rw [h2, hvals, Multiset.coe_add, Multiset.coe_add,
              List.append_assoc, List.singleton_append]
          · rw [h3, push_eq]
            show q.sends + 1 + numPushes ops = q.sends + (numPushes ops + 1)
            omega
          · exact h4
      | pop tid =>
          cases ids with
          | nil =>
              have hpop := popOp_nil q h
              obtain ⟨ids', h1, h2, h3, h4⟩ := ih q [] h
              refine ⟨ids', ?_, ?_, ?_, ?_⟩ <;>
                simp only [runOps, hpop, pushedValues, numPushes]
              · exact h1
              · exact h2
              · exact h3
              · exact h4
          | cons j rest =>
              obtain ⟨v, q', hval, hpop, hch, ha, _, _, _, hs, hr, _, _, _⟩ :=
                popOp_cons q j rest h
              obtain ⟨ids', h1, h2, h3, h4⟩ := ih q' rest hch
              have hcv : valuesOf q.arena (j :: rest)
                  = v :: valuesOf q.arena rest := by
                unfold valuesOf
                rw [List.filterMap_cons, hval]
              refine ⟨ids', ?_, ?_, ?_, ?_⟩ <;>
                simp only [runOps, hpop, pushedValues, numPushes, List.map_cons,
                  List.length_cons]
              · exact h1
              · rw [← Multiset.cons_coe, Multiset.cons_add, h2, ha, hcv,
                  ← Multiset.cons_coe, Multiset.cons_add]
              · rw [h3, hs]
              · rw [h4, hr]
                omega
      | close =>
          have ha : ((q.close).2).arena = q.arena := by
            unfold Queue.close
            by_cases hc : q.closed <;> simp [hc]
          have hh : ((q.close).2).head = q.head := by
            unfold Queue.close
            by_cases hc : q.closed <;> simp [hc]
          have ht : ((q.close).2).tail = q.tail := by
            unfold Queue.close
            by_cases hc : q.closed <;> simp [hc]
          have hs : ((q.close).2).sends = q.sends := by
            unfold Queue.close
            by_cases hc : q.closed <;> simp [hc]
          have hr : ((q.close).2).recvs = q.recvs := by
            unfold Queue.close
            by_cases hc : q.closed <;> simp [hc]
          have hch : chainOf (q.close).2 ids := by
            obtain ⟨h1, h2, h3, h4⟩ := h
            exact ⟨by rw [ha, hh]; exact h1,
                   by rw [hh, ht]; exact h2,
                   by rw [ha, hh]; exact h3,
                   by rw [ha]; exact h4⟩
          obtain ⟨ids', h1, h2, h3, h4⟩ := ih (q.close).2 ids hch
          refine ⟨ids', ?_, ?_, ?_, ?_⟩ <;>
            simp only [runOps, pushedValues, numPushes]
          · exact h1
          · rw [h2, ha]
          · rw [h3, hs]
          · rw [h4, hr]

/-- The chain of a queue state is unique. -/
theorem chainOf_unique (q : Queue T) (ids ids' : List Nat)
    (h : chainOf q ids) (h' : chainOf q ids') : ids = ids' :=
  links_deterministic q.arena ids q.head ids' h.1 h'.1

/-- A fresh queue satisfies the chain invariant with the empty chain: only
the sentinel exists and `head = tail` points at it. -/
theorem chainOf_new (T : Type) : chainOf (Queue.new T) [] := by
  refine ⟨?_, ?_, ?_, ?_⟩ <;> simp [Queue.new, links, nodeNext]

/-- Pushing a whole sequence appends its values, in order, to the chain. -/
theorem chainOf_pushAll (T : Type) :
    ∀ (vs : List T) (q : Queue T) (ids : List Nat), chainOf q ids →
      ∃ ids', chainOf (pushAll q vs) ids' ∧
        valuesOf (pushAll q vs).arena ids' = valuesOf q.arena ids ++ vs := by
  intro vs
  induction vs with
  | nil =>
      intro q ids h
      exact ⟨ids, h, by simp [pushAll]⟩
  | cons v vs ih =>
      intro q ids h
      obtain ⟨hch, hvals⟩ := chainOf_push q v ids h
      obtain ⟨ids', h1, h2⟩ := ih (q.push v) (ids ++ [q.arena.length]) hch
      refine ⟨ids', ?_, ?_⟩
      · simpa only [pushAll, List.foldl_cons] using h1
      · show valuesOf (pushAll q (v :: vs)).arena ids' = _
        simp only [pushAll, List.foldl_cons] at h2 ⊢
        rw [h2, hvals, List.append_assoc, List.singleton_append]

/-- Draining a chain with as many pops as it has nodes returns exactly its
values, in chain order, each pop succeeding. -/
theorem popN_chain (T : Type) :
    ∀ (ids : List Nat) (q : Queue T), chainOf q ids →
      popN q ids.length = (valuesOf q.arena ids).map some := by
  intro ids
  induction ids with
  | nil =>
      intro q _
      simp [popN, valuesOf]
  | cons j rest ih =>
      intro q h
      obtain ⟨v, q', hval, hpop, hch, ha, _, _, _, _, _, _, _, _⟩ :=
        popOp_cons q j rest h
      show popN q (rest.length + 1) = _
      simp only [popN, hpop]
      rw [ih q' hch, ha]
      unfold valuesOf
      rw [List.filterMap_cons, hval]
      rfl

/-- A link chain passes through any of its members: the links restarting at a
member are its suffix. -/
theorem links_sub (arena : List (Node T)) :
    ∀ (as : List Nat) (i j : Nat) (bs : List Nat),
      links arena i (as ++ j :: bs) = true → links arena j bs = true := by
  intro as
  induction as with
  | nil =>
      intro i j bs h
      simp only [List.nil_append, links, Bool.and_eq_true] at h
      exact h.2
  | cons a as ih =>
      intro i j bs h
      simp only [List.cons_append, links, Bool.and_eq_true] at h
      exact ih a j bs h.2

/-- A link chain never repeats a node: `next` is a function of the node, so
a repeat would force the chain to be periodic and never reach its null
terminator. -/
theorem links_nodup (arena : List (Node T)) :
    ∀ (ids : List Nat) (i : Nat), links arena i ids = true →
      (i :: ids).Nodup := by
  intro ids
  induction ids with
  | nil =>
      intro i _
      simp
  | cons j rest ih =>
      intro i h
      have h' := h
      simp only [links, Bool.and_eq_true, beq_iff_eq] at h'
      obtain ⟨_, hrest⟩ := h'
      have hnd : (j :: rest).Nodup := ih j hrest
      refine List.nodup_cons.mpr ⟨?_, hnd⟩
      intro hmem
      obtain ⟨as, bs, heq⟩ := List.append_of_mem hmem
      have hsub : links arena i bs = true := by
        rw [heq] at h
        exact links_sub arena as i i bs h
      have hdet := links_deterministic arena (j :: rest) i bs h hsub
      have : (j :: rest).length = as.length + 1 + bs.length := by
        rw [heq]
        simp
        omega
      rw [hdet] at this
      omega

/-- A duplicate-free list of indices below `n` has at most `n` elements. -/
theorem nodup_bounded_length (l : List Nat) (n : Nat) (hnd : l.Nodup)
    (hb : ∀ i ∈ l, i < n) : l.length ≤ n := by
  classical
  have h1 : l.toFinset.card = l.length := List.toFinset_card_of_nodup hnd
  have h2 : l.toFinset ⊆ Finset.range n := fun x hx =>
    Finset.mem_range.mpr (hb x (List.mem_toFinset.mp hx))
  have h3 := Finset.card_le_card h2
  rw [h1, Finset.card_range] at h3
  exact h3

/-- A trace pushes as many values as it has push operations. -/
theorem pushedValues_length (T : Type) :
    ∀ ops : List (Op T), (pushedValues ops).length = numPushes ops := by
  intro ops
  induction ops with
  | nil => rfl
  | cons op ops ih =>
      cases op <;> simp only [pushedValues, numPushes, List.length_cons] <;> omega

/-- When every chained node holds a value, the chain holds as many values as
nodes. -/
theorem valuesOf_length (arena : List (Node T)) :
    ∀ ids : List Nat, (∀ i ∈ ids, (nodeValue arena i).isSome = true) →
      (valuesOf arena ids).length = ids.length := by
  intro ids
  induction ids with
  | nil =>
      intro _
      rfl
  | cons j rest ih =>
      intro h
      obtain ⟨v, hv⟩ := Option.isSome_iff_exists.mp (h j (by simp))
      have hr := ih (fun i hi => h i (by simp [hi]))
      unfold valuesOf at hr ⊢
      rw [List.filterMap_cons, hv]
      simp only [List.length_cons]
      omega

/-- `pop` never touches the closed flag. -/
theorem popOp_closed (q : Queue T) : (q.popOp).2.closed = q.closed := by
  unfold Queue.popOp
  cases nodeNext q.arena q.head <;> rfl

/-- The `MULTI` bit test, as the source writes it (`tag & MULTI == 0`),
matches `testBit 1`. -/
theorem and_multi_ne_zero_iff (t : Nat) :
    t &&& MULTI ≠ 0 ↔ t.testBit 1 = true := by
  have h := Nat.and_two_pow t 1
  rw [show MULTI = 2 ^ 1 from rfl]
  rw [h]
  cases ht : t.testBit 1 <;> simp

/-- The teardown walk along a link chain: it drops exactly the values of the
nodes after the start node and frees exactly the chain's nodes, in order. -/
theorem dropWalk_spec (arena : List (Node T)) :
    ∀ (ids : List Nat) (i fuel : Nat),
      links arena i ids = true → ids.length < fuel →
      dropWalk arena (some i) fuel = (valuesOf arena ids, i :: ids) := by
  intro ids
  induction ids with
  | nil =>
      intro i fuel h hf
      cases fuel with
      | zero => omega
      | succ f =>
          simp only [links, beq_iff_eq] at h
          simp [dropWalk, h, valuesOf]
  | cons j rest ih =>
      intro i fuel h hf
      cases fuel with
      | zero => omega
      | succ f =>
          simp only [links, Bool.and_eq_true, beq_iff_eq] at h
          obtain ⟨hij, hrest⟩ := h
          have hrec := ih j f hrest (by simp at hf; omega)
          simp only [dropWalk, hij, hrec]
          unfold valuesOf
          rw [List.filterMap_cons]
          cases hv : nodeValue arena j <;> simp [hv]

/-! ## The claims -/

/-- C1: for every interleaving of pushes by any number of producers and pops
by any number of consumers that drains the queue (empty chain at the end,
closing allowed anywhere), the multiset of all values returned by pops
equals the multiset of all values pushed — every successfully pushed value
is delivered to exactly one pop, no value lost, none duplicated. -/
theorem mpmc_no_value_lost_or_duplicated {T : Type} (ops : List (Op T))
    (hdrained : chainOf (runOps (Queue.new T) ops).1 []) :
    Multiset.ofList ((runOps (Queue.new T) ops).2.map Prod.snd)
      = Multiset.ofList (pushedValues ops) := by
  obtain ⟨ids', h1, h2, _, _⟩ := runOps_spec T ops (Queue.new T) [] (chainOf_new T)
  obtain rfl : ids' = [] := chainOf_unique _ _ _ h1 hdrained
  simpa [valuesOf] using h2

/-- C1 witness: two producers push 10 and 20, two consumers drain; the
multiset received is exactly the multiset sent. -/
theorem mpmc_no_value_lost_or_duplicated_witness :
    chainOf (runOps (Queue.new Nat)
        [.push 0 10, .push 1 20, .pop 2, .pop 3]).1 [] ∧
      Multiset.ofList ((runOps (Queue.new Nat)
          [.push 0 10, .push 1 20, .pop 2, .pop 3]).2.map Prod.snd)
        = Multiset.ofList (pushedValues
            ([.push 0 10, .push 1 20, .pop 2, .pop 3] : List (Op Nat))) :=
  ⟨by decide, mpmc_no_value_lost_or_duplicated _ (by decide)⟩

/-- C2: a single producer pushes `vs` in order into an idle fresh queue; a
single consumer then popping `vs.length` times receives exactly `vs`, each
pop succeeding, in push order (FIFO). -/
theorem fifo_single_producer_single_consumer {T : Type} (vs : List T) :
    popN (pushAll (Queue.new T) vs) vs.length = vs.map some := by
  obtain ⟨ids', h1, h2⟩ := chainOf_pushAll T vs (Queue.new T) [] (chainOf_new T)
  have hv : valuesOf (pushAll (Queue.new T) vs).arena ids' = vs := by
    rw [h2]
    simp [valuesOf]
  have hlen : vs.length = ids'.length := by
    rw [← hv]
    exact valuesOf_length _ ids' h1.2.2.2
  rw [hlen, popN_chain T ids' _ h1, hv]

/-- C3: `try_recv` reports *Disconnected* exactly when `pop` found no value
and the queue is closed, *Empty* exactly when `pop` found no value and the
queue is open; and an iteration of `pop`'s fast loop reports "no value"
(returns `None`) exactly when it acquires `USE` (tag was 0), `head.next` is
null and `tail == head` — when `next` is null but `tail` differs from
`head` that iteration instead releases `USE` and retries (the push race). -/
theorem try_recv_error_classification (T : Type) :
    (∀ q : Queue T, (q.tryRecv).1 = .error .disconnected ↔
        (q.popOp).1 = none ∧ q.closed = true) ∧
    (∀ q : Queue T, (q.tryRecv).1 = .error .empty ↔
        (q.popOp).1 = none ∧ q.closed = false) ∧
    (∀ q : Queue T, (q.popFastIter).1 = .empty ↔
        q.headTag = 0 ∧ nodeNext q.arena q.head = none ∧ q.tail = q.head) ∧
    (∀ q : Queue T, (q.popFastIter).1 = .pushRace ↔
        q.headTag = 0 ∧ nodeNext q.arena q.head = none ∧ q.tail ≠ q.head) := by
  have hrecv : ∀ q : Queue T,
      ((q.tryRecv).1 = .error .disconnected ↔
        (q.popOp).1 = none ∧ q.closed = true) ∧
      ((q.tryRecv).1 = .error .empty ↔
        (q.popOp).1 = none ∧ q.closed = false) := by
    intro q
    have hcl : (q.popOp).2.closed = q.closed := popOp_closed q
    unfold Queue.tryRecv
    rcases hpop : q.popOp with ⟨o, q'⟩
    rw [hpop] at hcl
    cases o with
    | none =>
        cases hc : q'.closed <;> rw [hc] at hcl <;> simp [hc, ← hcl]
    | some v =>
        simp
  have hfast : ∀ q : Queue T,
      ((q.popFastIter).1 = .empty ↔
        q.headTag = 0 ∧ nodeNext q.arena q.head = none ∧ q.tail = q.head) ∧
      ((q.popFastIter).1 = .pushRace ↔
        q.headTag = 0 ∧ nodeNext q.arena q.head = none ∧ q.tail ≠ q.head) := by
    intro q
    unfold Queue.popFastIter
    by_cases h0 : q.headTag = 0
    · simp only [h0, ne_eq, not_true_eq_false, if_false, ite_false]
      cases hn : nodeNext q.arena q.head with
      | none =>
          by_cases ht : q.tail = q.head <;> simp [hn, ht]
      | some nxt =>
          simp [hn]
    · simp [h0]
  exact ⟨fun q => (hrecv q).1, fun q => (hrecv q).2,
         fun q => (hfast q).1, fun q => (hfast q).2⟩

/-- C4: `push` is exactly the four-step sequence — allocate a node holding
the value with a null `next`, swap the tail to it obtaining the previous
tail, increment `sends`, store the node into the previous tail's `next` —
composed in that order; it is a total function (no failure case, no
blocking, no retry loop) and touches nothing else in the queue. -/
theorem push_steps_in_order (T : Type) :
    ∀ (q : Queue T) (v : T),
      (q.push v =
        (((q.allocNode v).1.swapTail (q.allocNode v).2).1.incSends).storeNext
          ((q.allocNode v).1.swapTail (q.allocNode v).2).2
          (q.allocNode v).2) ∧
      nodeNext (q.allocNode v).1.arena (q.allocNode v).2 = none ∧
      nodeValue (q.allocNode v).1.arena (q.allocNode v).2 = some v ∧
      (q.push v).tail = q.arena.length ∧
      (q.push v).sends = q.sends + 1 ∧
      (q.push v).head = q.head ∧
      (q.push v).headTag = q.headTag ∧
      (q.push v).recvs = q.recvs ∧
      (q.push v).closed = q.closed ∧
      (q.push v).freed = q.freed ∧
      (q.push v).receivers = q.receivers ∧
      nodeValue (q.push v).arena q.arena.length = some v ∧
      (q.tail < q.arena.length →
        nodeNext (q.push v).arena q.tail = some q.arena.length) := by
  intro q v
  refine ⟨rfl, ?_, ?_, rfl, rfl, rfl, rfl, rfl, rfl, rfl, rfl, ?_, ?_⟩
  · show nodeNext (q.arena ++ [{ next := none, value := some v }])
      q.arena.length = none
    rw [nodeNext_append_self]
  · show nodeValue (q.arena ++ [{ next := none, value := some v }])
      q.arena.length = some v
    rw [nodeValue_append_self]
  · rw [push_eq]
    show nodeValue (setNext (q.arena ++ [{ next := none, value := some v }])
      q.tail q.arena.length) q.arena.length = some v
    rw [nodeValue_setNext, nodeValue_append_self]
  · intro ht
    rw [push_eq]
    show nodeNext (setNext (q.arena ++ [{ next := none, value := some v }])
      q.tail q.arena.length) q.tail = some q.arena.length
    rw [nodeNext_setNext_self]
    simp
    omega

/-- C5: `len`'s snapshot loop succeeds immediately against an unchanging
state (the two reads of `sends` agree) and returns `sends − recvs`;
`is_empty` is `len == 0`; after any interleaving of pushes and pops from a
fresh queue, `sends` counts the pushes, `recvs` counts the completed pops
(`M`), `M ≤ N`, and `len` is exactly `N − M`; and `sends`/`recvs` are
monotonically non-decreasing under every channel operation. -/
theorem len_accounting (T : Type) :
    (∀ q : Queue T, q.lenSnapshot = some q.len) ∧
    (∀ q : Queue T, q.isEmpty = (q.len == 0)) ∧
    (∀ ops : List (Op T),
      (runOps (Queue.new T) ops).1.sends = numPushes ops ∧
      (runOps (Queue.new T) ops).1.recvs = (runOps (Queue.new T) ops).2.length ∧
      (runOps (Queue.new T) ops).2.length ≤ numPushes ops ∧
      (runOps (Queue.new T) ops).1.len
        = numPushes ops - (runOps (Queue.new T) ops).2.length) ∧
    (∀ (q : Queue T) (op : ChanOp T),
      q.sends ≤ (stepChanOp q op).sends ∧ q.recvs ≤ (stepChanOp q op).recvs) := by
  refine ⟨?_, ?_, ?_, ?_⟩
  · intro q
    simp [Queue.lenSnapshot, Queue.len]
  · intro q
    rfl
  · intro ops
    obtain ⟨ids', h1, h2, h3, h4⟩ := runOps_spec T ops (Queue.new T) [] (chainOf_new T)
    have hsends : (runOps (Queue.new T) ops).1.sends = numPushes ops := by
      rw [h3]
      simp [Queue.new]
    have hrecvs : (runOps (Queue.new T) ops).1.recvs
        = (runOps (Queue.new T) ops).2.length := by
      rw [h4]
      simp [Queue.new]
    have hcard := congrArg Multiset.card h2
    rw [Multiset.card_add, Multiset.card_add, Multiset.coe_card,
      Multiset.coe_card, Multiset.coe_card, Multiset.coe_card,
      List.length_map] at hcard
    have hle : (runOps (Queue.new T) ops).2.length ≤ numPushes ops := by
      have : (valuesOf (Queue.new T).arena []).length = 0 := rfl
      rw [this, pushedValues_length] at hcard
      omega
    refine ⟨hsends, hrecvs, hle, ?_⟩
    unfold Queue.len
    rw [hsends, hrecvs]
  · intro q op
    cases op with
    | trySend v =>
        simp only [stepChanOp]
        unfold Queue.trySend
        by_cases hc : q.closed <;> simp [hc, push_eq]
    | sendUntil v d =>
        simp only [stepChanOp]
        unfold Queue.sendUntil
        by_cases hc : q.closed <;> simp [hc, push_eq]
    | tryRecv =>
        simp only [stepChanOp]
        unfold Queue.tryRecv
        rcases hpop : q.popOp with ⟨o, q'⟩
        have hs : q'.sends = q.sends ∧ q.recvs ≤ q'.recvs := by
          have h1 := congrArg (fun p => p.2.sends) hpop
          have h2 := congrArg (fun p => p.2.recvs) hpop
          simp only at h1 h2
          rw [← h1, ← h2]
          unfold Queue.popOp
          cases nodeNext q.arena q.head <;> simp
        cases o <;> by_cases hc : q'.closed <;> simp [hc, hs.1, hs.2]
    | close =>
        simp only [stepChanOp]
        unfold Queue.close
        by_cases hc : q.closed <;> simp [hc]
    | push v =>
        simp only [stepChanOp]
        rw [push_eq]
        simp
    | pop =>
        simp only [stepChanOp]
        unfold Queue.popOp
        cases nodeNext q.arena q.head <;> simp

/-- C6: the first `close` on an open queue returns true, sets the closed
flag and wakes every registered waiting receiver; a `close` on an
already-closed queue returns false and changes nothing (no wakeup); a
second `close` immediately after any `close` returns false and leaves the
state untouched; and the closed flag, once true, is never cleared by any
channel operation. -/
theorem close_idempotent (T : Type) :
    ∀ q : Queue T,
      (q.close).1 = !q.closed ∧
      ((q.close).2).closed = true ∧
      ((q.close).2).receivers =
        (if q.closed then q.receivers
         else { registered := [],
                woken := q.receivers.woken ++ q.receivers.registered }) ∧
      (q.closed = true → (q.close).2 = q) ∧
      ((q.close).2).close = (false, (q.close).2) ∧
      (∀ op : ChanOp T, (stepChanOp q op).closed = (q.closed || op.isClose)) := by
  intro q
  refine ⟨?_, ?_, ?_, ?_, ?_, ?_⟩
  · unfold Queue.close
    by_cases hc : q.closed <;> simp [hc]
  · unfold Queue.close
    by_cases hc : q.closed <;> simp [hc]
  · unfold Queue.close
    by_cases hc : q.closed <;> simp [hc, Monitor.wakeupAll]
  · intro hc
    cases q with
    | mk ar fr hd tg tl sn rc cl rcv =>
        simp only at hc
        subst hc
        unfold Queue.close
        simp
  · unfold Queue.close
    by_cases hc : q.closed <;> simp [hc]
  · intro op
    cases op with
    | trySend v =>
        simp only [stepChanOp]
        unfold Queue.trySend ChanOp.isClose
        by_cases hc : q.closed <;> simp [hc, push_eq]
    | sendUntil v d =>
        simp only [stepChanOp]
        unfold Queue.sendUntil ChanOp.isClose
        by_cases hc : q.closed <;> simp [hc, push_eq]
    | tryRecv =>
        simp only [stepChanOp]
        unfold Queue.tryRecv ChanOp.isClose
        rcases hpop : q.popOp with ⟨o, q'⟩
        have hcl : q'.closed = q.closed := by
          have h1 := congrArg (fun p => p.2.closed) hpop
          simp only at h1
          rw [← h1, popOp_closed]
        cases o <;> cases hc : q'.closed <;>
          rw [hc] at hcl <;> simp [hc, ← hcl]
    | close =>
        simp only [stepChanOp]
        unfold Queue.close ChanOp.isClose
        by_cases hc : q.closed <;> simp [hc]
    | push v =>
        simp only [stepChanOp, ChanOp.isClose]
        rw [push_eq]
        simp
    | pop =>
        simp only [stepChanOp, ChanOp.isClose]
        rw [popOp_closed]
        simp

/-- C7: `try_send` fails exactly when the closed flag is set, returning
`Disconnected` with the unsent value and leaving the queue untouched;
otherwise it pushes the value, wakes one waiting receiver and returns `Ok`.
It never returns a *Full* error (nor any other kind). -/
theorem try_send_error_conditions (T : Type) :
    ∀ (q : Queue T) (v : T),
      (q.closed = true → q.trySend v = (.error (.disconnected v), q)) ∧
      (q.closed = false → q.trySend v =
        (.ok (), { q.push v with
                   receivers := (q.push v).receivers.wakeupOne })) ∧
      ((q.trySend v).1.isOk = !q.closed) ∧
      (∀ w, (q.trySend v).1 ≠ .error (.full w)) := by
  intro q v
  refine ⟨?_, ?_, ?_, ?_⟩
  · intro hc
    unfold Queue.trySend
    simp [hc]
  · intro hc
    unfold Queue.trySend
    simp [hc]
  · unfold Queue.trySend
    by_cases hc : q.closed <;> simp [hc, Except.isOk, Except.toBool]
  · intro w
    unfold Queue.trySend
    by_cases hc : q.closed <;> simp [hc]

/-- C8: the `MULTI` tag bit on the head pointer is monotone — every atomic
head update `pop` performs preserves it once set (in particular the
fast-path CAS, which requires tag exactly `USE`, can never fire while
`MULTI` is set), a pop starting with `MULTI` set selects the slow path, and
the slow path's successful CAS installs the new head with tag exactly
`MULTI` — so the tag never returns to `FAST_FREE` (0) or `FAST_BUSY`
(`USE`). -/
theorem multi_tag_monotone (T : Type) :
    (∀ (op : HeadOp) (h : HeadPtr), h.tag &&& MULTI ≠ 0 →
      (applyHeadOp op h).tag &&& MULTI ≠ 0) ∧
    (∀ q : Queue T, q.headTag &&& MULTI ≠ 0 → q.popPath = .slow) ∧
    (∀ (e : HeadPtr) (n : Nat), applyHeadOp (.casSlow e n) e = ⟨n, MULTI⟩) := by
  refine ⟨?_, ?_, ?_⟩
  · intro op h hm
    rw [and_multi_ne_zero_iff] at hm ⊢
    cases op with
    | fetchOrUse =>
        show ((h.tag ||| USE).testBit 1) = true
        rw [Nat.testBit_lor, hm]
        rfl
    | fetchAndNotUse =>
        show ((h.tag &&& NOT_USE).testBit 1) = true
        rw [Nat.testBit_land, hm]
        rfl
    | fetchOrMulti =>
        show ((h.tag ||| MULTI).testBit 1) = true
        rw [Nat.testBit_lor, hm]
        rfl
    | casFast e n =>
        show ((if h = ⟨e, USE⟩ then (⟨n, 0⟩ : HeadPtr) else h).tag.testBit 1) = true
        have hne : h ≠ (⟨e, USE⟩ : HeadPtr) := by
          intro hcontra
          rw [hcontra] at hm
          simp [USE] at hm
          exact absurd hm (by decide)
        rw [if_neg hne]
        exact hm
    | casSlow e n =>
        show ((if h = e then (⟨n, MULTI⟩ : HeadPtr) else h).tag.testBit 1) = true
        by_cases he : h = e
        · rw [if_pos he]
          show Nat.testBit MULTI 1 = true
          decide
        · rw [if_neg he]
          exact hm
  · intro q hm
    unfold Queue.popPath
    rw [if_neg hm]
  · intro e n
    simp [applyHeadOp]

/-- C9: tearing the queue down walks the chain from `head`, drops in place
the value of every node after the head (one drop per node — the sentinel's
slot is never dropped as a value), and frees every chain node exactly once,
the sentinel (the node at `head`) included: the freed list is exactly the
chain and has no duplicates. -/
theorem drop_frees_chain_exactly_once (T : Type) (q : Queue T)
    (ids : List Nat) (h : chainOf q ids) :
    q.dropQueue = (valuesOf q.arena ids, q.head :: ids) ∧
    (q.head :: ids).Nodup ∧
    (valuesOf q.arena ids).length = ids.length := by
  obtain ⟨hl, _, hb, hv⟩ := h
  have hnd : (q.head :: ids).Nodup := links_nodup q.arena ids q.head hl
  have hle : (q.head :: ids).length ≤ q.arena.length :=
    nodup_bounded_length _ _ hnd hb
  refine ⟨?_, hnd, valuesOf_length _ _ hv⟩
  unfold Queue.dropQueue
  exact dropWalk_spec q.arena ids q.head (q.arena.length + 1) hl
    (by simp at hle; omega)

/-- C9 witness: a queue holding 5 and 6 behind the sentinel (node 0): the
teardown drops exactly the two values and frees nodes 0, 1, 2 once each. -/
theorem drop_frees_chain_exactly_once_witness :
    chainOf (pushAll (Queue.new Nat) [5, 6]) [1, 2] ∧
      ((pushAll (Queue.new Nat) [5, 6]).dropQueue
          = (valuesOf (pushAll (Queue.new Nat) [5, 6]).arena [1, 2],
             (pushAll (Queue.new Nat) [5, 6]).head :: [1, 2]) ∧
        ((pushAll (Queue.new Nat) [5, 6]).head :: [1, 2]).Nodup ∧
        (valuesOf (pushAll (Queue.new Nat) [5, 6]).arena [1, 2]).length
          = ([1, 2] : List Nat).length) :=
  ⟨by decide, drop_frees_chain_exactly_once Nat _ [1, 2] (by decide)⟩

/-- C10: `send_until` never inspects its deadline — for any two deadlines
(past or future) it behaves identically, it never returns a *Timeout*
error, and its behaviour coincides with `try_send`: `Disconnected`
carrying the value back when the queue is closed (state unchanged),
otherwise push, wake one receiver and return `Ok`. -/
theorem send_until_ignores_deadline (T : Type) :
    ∀ (q : Queue T) (v : T) (d d' : Option Nat),
      q.sendUntil v d = q.sendUntil v d' ∧
      (∀ w, (q.sendUntil v d).1 ≠ .error (.timeout w)) ∧
      (q.closed = true → q.sendUntil v d = (.error (.disconnected v), q)) ∧
      (q.closed = false → q.sendUntil v d =
        (.ok (), { q.push v with
                   receivers := (q.push v).receivers.wakeupOne })) ∧
      ((q.sendUntil v d).2 = (q.trySend v).2) ∧
      ((q.sendUntil v d).1.isOk = (q.trySend v).1.isOk) := by
  intro q v d d'
  refine ⟨rfl, ?_, ?_, ?_, ?_, ?_⟩
  · intro w
    unfold Queue.sendUntil
    by_cases hc : q.closed <;> simp [hc]
  · intro hc
    unfold Queue.sendUntil
    simp [hc]
  · intro hc
    unfold Queue.sendUntil
    simp [hc]
  · unfold Queue.sendUntil Queue.trySend
    by_cases hc : q.closed <;> simp [hc]
  · unfold Queue.sendUntil Queue.trySend
    by_cases hc : q.closed <;> simp [hc, Except.isOk, Except.toBool]

end ListQueue
